import Mathlib

/-!
# Verification of the Travel Buddy intent-matching core (`src/utils/intents.js`)

A shallow embedding of the rule-based bilingual intent matcher: text
normalization (`norm` / `stripAccents`), language canonicalization
(`normalizeLang`), the French-to-English query rewriter
(`mapFrenchToEnglishForIntentMatching`), pattern extraction
(`extractPatterns`), response selection (`pickResponse`), whole-word
matching (`matchesWhole`, embedding the semantics of the JS regex
`\b<escaped pattern>\b`), the scan with specificity tie-break
(`matchIntent`), and the CSV row parser used by the loader
(`parseCSVLine`, `parseIntents`).

JS strings are modelled as `List Char` (the source only manipulates
Basic Multilingual Plane text, where UTF-16 code units and Unicode
scalars coincide).  `String.prototype.toLowerCase` and Unicode NFD
decomposition are modelled on the repertoire the program manipulates:
ASCII plus the precomposed Latin letters appearing in the rule
vocabulary; all other characters are fixed points, as they are in JS
for the inputs this program sees.
-/

/-- JS strings, modelled as lists of Unicode scalars. -/
abbrev JStr := List Char

/-- Coerce a Lean string literal to the JS string model. -/
def str (s : String) : JStr := s.data

/-- Characters that `String.prototype.trim` removes (the JS WhiteSpace /
LineTerminator set restricted to the characters this model covers). -/
def jsWhitespace (c : Char) : Bool :=
  c = ' ' || c = '\t' || c = '\n' || c = '\r' ||
  c = '\x0b' || c = '\x0c' || c = '\u00a0' || c = '\ufeff'

/-- Combining diacritical marks U+0300–U+036F, the range removed by
`stripAccents`'s `.replace(/[̀-ͯ]/g, "")`. -/
def combining (c : Char) : Bool :=
  0x300 ≤ c.toNat && c.toNat ≤ 0x36f

/-- Lower-case mapping for the letters the program manipulates: ASCII
`A`–`Z` plus the precomposed Latin capitals of the rule vocabulary. -/
def lowerTable : List (Char × Char) :=
  [('A', 'a'), ('B', 'b'), ('C', 'c'), ('D', 'd'), ('E', 'e'),
   ('F', 'f'), ('G', 'g'), ('H', 'h'), ('I', 'i'), ('J', 'j'),
   ('K', 'k'), ('L', 'l'), ('M', 'm'), ('N', 'n'), ('O', 'o'),
   ('P', 'p'), ('Q', 'q'), ('R', 'r'), ('S', 's'), ('T', 't'),
   ('U', 'u'), ('V', 'v'), ('W', 'w'), ('X', 'x'), ('Y', 'y'),
   ('Z', 'z'),
   ('À', 'à'), ('Â', 'â'), ('Ä', 'ä'), ('É', 'é'), ('È', 'è'),
   ('Ê', 'ê'), ('Ë', 'ë'), ('Î', 'î'), ('Ï', 'ï'), ('Ô', 'ô'),
   ('Ö', 'ö'), ('Ù', 'ù'), ('Û', 'û'), ('Ü', 'ü'), ('Ç', 'ç')]

/-- JS `String.prototype.toLowerCase`, per character: capitals go through
`lowerTable`; every other character is a fixed point. -/
def jsToLower (c : Char) : Char :=
  (lowerTable.lookup c).getD c

/-- Unicode NFD decompositions for the precomposed Latin letters used by
the program (`"é" → "e" + U+0301`, `"ô" → "o" + U+0302`, …); all other
characters decompose to themselves. -/
def decompTable : List (Char × JStr) :=
  [('à', ['a', '\u0300']), ('â', ['a', '\u0302']), ('ä', ['a', '\u0308']),
   ('é', ['e', '\u0301']), ('è', ['e', '\u0300']), ('ê', ['e', '\u0302']),
   ('ë', ['e', '\u0308']), ('î', ['i', '\u0302']), ('ï', ['i', '\u0308']),
   ('ô', ['o', '\u0302']), ('ö', ['o', '\u0308']), ('ù', ['u', '\u0300']),
   ('û', ['u', '\u0302']), ('ü', ['u', '\u0308']), ('ç', ['c', '\u0327']),
   ('À', ['A', '\u0300']), ('Â', ['A', '\u0302']), ('Ä', ['A', '\u0308']),
   ('É', ['E', '\u0301']), ('È', ['E', '\u0300']), ('Ê', ['E', '\u0302']),
   ('Ë', ['E', '\u0308']), ('Î', ['I', '\u0302']), ('Ï', ['I', '\u0308']),
   ('Ô', ['O', '\u0302']), ('Ö', ['O', '\u0308']), ('Ù', ['U', '\u0300']),
   ('Û', ['U', '\u0302']), ('Ü', ['U', '\u0308']), ('Ç', ['C', '\u0327'])]

/-- NFD decomposition of one character. -/
def nfdChar (c : Char) : JStr := (decompTable.lookup c).getD [c]

/-- Source `stripAccents(s)`: `s.normalize("NFD").replace(/[̀-ͯ]/g, "")`. -/
def stripAccents (s : JStr) : JStr :=
  (s.flatMap nfdChar).filter (fun c => !combining c)

/-- JS `String.prototype.trim`: drop JS whitespace at both ends. -/
def jsTrim (s : JStr) : JStr :=
  ((s.dropWhile jsWhitespace).reverse.dropWhile jsWhitespace).reverse

/-- Source `norm(s)`: `stripAccents(String(s || "").toLowerCase().trim())`. -/
def norm (s : JStr) : JStr :=
  stripAccents (jsTrim (s.map jsToLower))

/-- JS `a.startsWith(b)` on the list model. -/
def startsWithL : JStr → JStr → Bool
  | _, [] => true
  | [], _ :: _ => false
  | a :: s, b :: p => a = b && startsWithL s p

/-- JS `s.includes(p)`: `p` occurs as a contiguous substring of `s`. -/
def includesL (s p : JStr) : Bool :=
  startsWithL s p ||
    match s with
    | [] => false
    | _ :: s' => includesL s' p

/-- Source `normalizeLang(lang)`: lower-case and trim the hint; `"fr"` when it
equals `"fr"` or starts with `"fr"`, otherwise `"en"`. -/
def normalizeLang (lang : JStr) : JStr :=
  let s := jsTrim (lang.map jsToLower)
  if s = str "fr" || startsWithL s (str "fr") then str "fr" else str "en"

/-! ## JS values and objects

Intent rules are plain JS objects.  The matcher only reads string and
(for pattern lists) array-of-string fields, so a value is a string, an
array of strings, or `undefined` (a missing property). -/

/-- A JS value as the matcher sees it. -/
inductive JVal where
  | undefined : JVal
  | s : JStr → JVal
  | arr : List JStr → JVal
deriving DecidableEq, Repr

/-- JS truthiness for the values modelled: `undefined` and `""` are
falsy; every array (even empty) is truthy. -/
def truthy : JVal → Bool
  | .undefined => false
  | .s cs => !cs.isEmpty
  | .arr _ => true

/-- JS `a || b`: `a` when truthy, otherwise `b`. -/
def jsOr (a b : JVal) : JVal := if truthy a then a else b

/-- JS `String(v)`: identity on strings, comma-join on arrays. -/
def jsString : JVal → JStr
  | .undefined => str "undefined"
  | .s cs => cs
  | .arr xs => (xs.intersperse (str ",")).flatten

/-- A JS object: properties in assignment order, later `setProp`
assignments overwrite earlier ones in place. -/
abbrev Obj := List (JStr × JVal)

/-- Property read `o[k]`; `undefined` when absent. -/
def getProp (o : Obj) (k : JStr) : JVal :=
  match o.lookup k with
  | some v => v
  | none => .undefined

/-- Property write `o[k] = v`. -/
def setProp (o : Obj) (k : JStr) (v : JVal) : Obj :=
  match o with
  | [] => [(k, v)]
  | (k', v') :: rest =>
      if k' = k then (k', v) :: rest else (k', v') :: setProp rest k v

/-! ## French-to-English query rewriting -/

/-- JS `split` at a one-character separator: split a JS string at a separator
character; `""` splits to `[""]`. -/
def splitCh (sep : Char) : JStr → List JStr
  | [] => [[]]
  | c :: t =>
      if c = sep then [] :: splitCh sep t
      else
        match splitCh sep t with
        | [] => [[c]]
        | h :: r => (c :: h) :: r

/-- The `hotelSignals` list from `mapFrenchToEnglishForIntentMatching`. -/
def hotelSignals : List JStr :=
  [str "reserver un hotel", str "reserver hotel", str "reservation hotel",
   str "hotel", str "hôtel", str "hebergement", str "hébergement",
   str "logement"]

/-- The `taxiSignals` list from `mapFrenchToEnglishForIntentMatching`. -/
def taxiSignals : List JStr :=
  [str "reserver un taxi", str "reserver taxi", str "reservation taxi",
   str "taxi", str "chauffeur", str "transport", str "voiture"]

/-- Source `mapFrenchToEnglishForIntentMatching(message)`: rewrite common French
booking commands onto the English trigger vocabulary; pass everything
else through unchanged. -/
def mapFrenchToEnglishForIntentMatching (message : JStr) : JStr :=
  let m := norm message
  let hasReserveVerb :=
    includesL m (str "reserver") || includesL m (str "réserver") ||
    includesL m (str "reservation") || includesL m (str "réservation") ||
    includesL m (str "book") || includesL m (str "booking")
  let mentionsHotel := hotelSignals.any (fun k => includesL m (norm k))
  let mentionsTaxi := taxiSignals.any (fun k => includesL m (norm k))
  if hasReserveVerb && mentionsHotel then str "book hotel"
  else if hasReserveVerb && mentionsTaxi then str "book taxi"
  else if m = str "hotel" || m = str "un hotel" ||
          m = str "hôtel" || m = str "un hôtel" then str "book hotel"
  else if m = str "taxi" || m = str "un taxi" then str "book taxi"
  else message

/-! ## Pattern extraction and response selection -/

/-- Source `extractPatterns(intentObj)`: read `patterns`/`keywords`/`phrases`
(first truthy wins); a pipe-separated string is split, trimmed, and
empty entries dropped; an array keeps its truthy entries; anything else
contributes nothing. -/
def extractPatterns (it : Obj) : List JStr :=
  let raw := jsOr (getProp it (str "patterns"))
      (jsOr (getProp it (str "keywords"))
        (jsOr (getProp it (str "phrases")) (.s [])))
  match raw with
  | .s cs =>
      if cs.isEmpty then []
      else ((splitCh '|' cs).map jsTrim).filter (fun x => !x.isEmpty)
  | .arr xs => xs.filter (fun x => !x.isEmpty)
  | .undefined => []

/-- Chain `it.response_fr || it.reponse_fr || it.fr || ""`. -/
def frOf (it : Obj) : JVal :=
  jsOr (getProp it (str "response_fr"))
    (jsOr (getProp it (str "reponse_fr"))
      (jsOr (getProp it (str "fr")) (.s [])))

/-- Chain `it.response_en || it.response || it.reply || it.text || ""`. -/
def enOf (it : Obj) : JVal :=
  jsOr (getProp it (str "response_en"))
    (jsOr (getProp it (str "response"))
      (jsOr (getProp it (str "reply"))
        (jsOr (getProp it (str "text")) (.s []))))

/-- Source `pickResponse(it, lang)`: the French response when the resolved
language is French and a non-empty (trimmed) French response exists,
otherwise the English/default response, trimmed; `""` when none. -/
def pickResponse (it : Obj) (lang : JStr) : JStr :=
  let L := normalizeLang lang
  if L = str "fr" && truthy (frOf it) &&
      !(jsTrim (jsString (frOf it))).isEmpty then
    jsTrim (jsString (frOf it))
  else jsTrim (jsString (jsOr (enOf it) (.s [])))

/-! ## Whole-word / whole-phrase matching

`matchesWhole(mNorm, patternNorm)` builds the regex
`\b<escapeRegex(patternNorm)>\b` and tests it against `mNorm`.  Since
the pattern is escaped it matches only literally, so the regex test
holds exactly when the pattern occurs contiguously in the subject with
a word boundary on each side.  A JS word boundary (no `u` flag) sits
between a word character `[A-Za-z0-9_]` and a non-word character,
treating the positions beyond either end of the subject as non-word. -/

/-- JS regex word characters `[A-Za-z0-9_]`. -/
def isWordChar (c : Char) : Bool :=
  ('a' ≤ c && c ≤ 'z') || ('A' ≤ c && c ≤ 'Z') ||
  ('0' ≤ c && c ≤ '9') || c = '_'

/-- Word-character test at a position that may be off either end. -/
def isWordOpt : Option Char → Bool
  | none => false
  | some c => isWordChar c

/-- A `\b` word boundary holds between two (possibly absent) adjacent characters. -/
def boundaryOk (a b : Option Char) : Bool := isWordOpt a != isWordOpt b

/-- The escaped pattern `p` matches at the very start of `s`, with
`prev` the character just before that position, under `\b…\b`. -/
def matchAt (prev : Option Char) (p s : JStr) : Bool :=
  startsWithL s p && boundaryOk prev p.head? &&
    boundaryOk p.getLast? (s.drop p.length).head?

/-- Scan `s` left to right for a bounded occurrence of `p`; `prev` is
the character preceding the current position. -/
def scanW (p : JStr) : Option Char → JStr → Bool
  | prev, s =>
      matchAt prev p s ||
        match s with
        | [] => false
        | c :: s' => scanW p (some c) s'

/-- Source `matchesWhole(mNorm, patternNorm)`: false on an empty pattern,
otherwise the bounded-occurrence test of `\b<pattern>\b`. -/
def matchesWhole (mNorm patternNorm : JStr) : Bool :=
  !patternNorm.isEmpty && scanW patternNorm none mNorm

/-! ## The matcher -/

/-- Chain `it.intent || it.name || it.id`. -/
def intentNameOf (it : Obj) : JVal :=
  jsOr (getProp it (str "intent"))
    (jsOr (getProp it (str "name")) (getProp it (str "id")))

/-- The transient best-candidate record `{ intent, response, score }`. -/
structure Cand where
  intent : JVal
  response : JStr
  score : Nat
deriving DecidableEq, Repr

/-- The inner `for (const p of patterns)` loop: fold the patterns of one
rule over the running best candidate, replacing it only on a strictly
greater score. -/
def patLoop (m : JStr) (nm : JVal) (resp : JStr) :
    List JStr → Option Cand → Option Cand
  | [], best => best
  | p :: ps, best =>
      let k := norm p
      if k.isEmpty then patLoop m nm resp ps best
      else if matchesWhole m k then
        let score := k.length
        match best with
        | none => patLoop m nm resp ps (some ⟨nm, resp, score⟩)
        | some b =>
            if score > b.score then
              patLoop m nm resp ps (some ⟨nm, resp, score⟩)
            else patLoop m nm resp ps (some b)
      else patLoop m nm resp ps best

/-- The outer `for (const it of intents)` loop: rules with a falsy
intent name or no extracted patterns are skipped. -/
def intentLoop (L m : JStr) : List Obj → Option Cand → Option Cand
  | [], best => best
  | it :: rest, best =>
      let nm := intentNameOf it
      if !truthy nm then intentLoop L m rest best
      else
        let patterns := extractPatterns it
        if patterns.isEmpty then intentLoop L m rest best
        else intentLoop L m rest (patLoop m nm (pickResponse it L) patterns best)

/-- The string actually used for matching: the French rewriter's output
when the resolved language is French, the raw message otherwise. -/
def subjectFor (message lang : JStr) : JStr :=
  if normalizeLang lang = str "fr" then
    mapFrenchToEnglishForIntentMatching message
  else message

/-- Source `matchIntent(intents, message, lang)`: `null` on a falsy message,
otherwise scan every rule's every pattern against the normalized
subject and return `{ intent, response }` of the best candidate, or
`null` when none matched.  (The `Array.isArray(intents)` guard of the
source is discharged by the type of `intents`.) -/
def matchIntent (intents : List Obj) (message : JStr)
    (lang : JStr := str "en") : Option (JVal × JStr) :=
  if message.isEmpty then none
  else
    let L := normalizeLang lang
    let m := norm (subjectFor message lang)
    match intentLoop L m intents none with
    | none => none
    | some best => some (best.intent, best.response)

/-! ## The rule loader

`loadIntents()` locates `intents.csv` on disk, reads it, and parses it.
The filesystem search and read are I/O; everything after
`fs.readFileSync` is pure and embedded here as `parseIntents` applied
to the raw file text. -/

/-- JS `raw.split` at line breaks: split at `"\r\n"` or `"\n"`; a lone `"\r"` is
not a separator. -/
def splitLines : JStr → List JStr
  | [] => [[]]
  | '\r' :: '\n' :: t => [] :: splitLines t
  | '\n' :: t => [] :: splitLines t
  | c :: t =>
      match splitLines t with
      | [] => [[c]]
      | h :: r => (c :: h) :: r

/-- The character loop of `parseCSVLine`: `inQ` is the `inQuotes` flag,
`cur` the field being accumulated, `acc` the fields already emitted.
A doubled quote is checked first (regardless of `inQuotes`) and emits
one literal quote; a single quote toggles `inQuotes`; a comma outside
quotes ends the field. -/
def parseCSVLineGo (inQ : Bool) (cur : JStr) :
    JStr → List JStr → List JStr
  | [], acc => acc ++ [cur]
  | '"' :: '"' :: rest, acc => parseCSVLineGo inQ (cur ++ ['"']) rest acc
  | '"' :: rest, acc => parseCSVLineGo (!inQ) cur rest acc
  | ',' :: rest, acc =>
      if inQ then parseCSVLineGo inQ (cur ++ [',']) rest acc
      else parseCSVLineGo inQ [] rest (acc ++ [cur])
  | c :: rest, acc => parseCSVLineGo inQ (cur ++ [c]) rest acc

/-- Source `parseCSVLine(line)`: split one data row into trimmed fields,
respecting double-quote enclosure. -/
def parseCSVLine (line : JStr) : List JStr :=
  (parseCSVLineGo false [] line []).map jsTrim

/-- Build one row object: `obj[header[i]] = cols[i] ?? ""`. -/
def buildObjGo : Obj → List JStr → List JStr → Obj
  | o, [], _ => o
  | o, h :: hs, [] => buildObjGo (setProp o h (.s [])) hs []
  | o, h :: hs, c :: cs => buildObjGo (setProp o h (.s c)) hs cs

/-- One parsed row of the rule source, keyed by the header fields. -/
def buildObj (header : List JStr) (cols : List JStr) : Obj :=
  buildObjGo [] header cols

/-- The pure tail of `loadIntents()`: split the raw text into non-blank
lines; fewer than two lines yield no rules; otherwise the first line is
the comma-split trimmed header and every further line becomes one rule
object. -/
def parseIntents (raw : JStr) : List Obj :=
  let lines := (splitLines raw).filter (fun l => !(jsTrim l).isEmpty)
  if lines.length < 2 then []
  else
    let header := (splitCh ',' (lines.headI)).map jsTrim
    let rows := lines.tail
    rows.map (fun line => buildObj header (parseCSVLine line))

/-! ## Specification-side definitions

Used to state refinement claims; written from the spec's words, to be
compared with the definitions embedded from the source above. -/

/-- Spec-side: the candidate produced by one pattern of one rule, in
scan order — `none` when the normalized pattern is empty or does not
match the comparison subject `m`. -/
def patternCand (m : JStr) (nm : JVal) (resp : JStr) (p : JStr) :
    Option Cand :=
  let k := norm p
  if k.isEmpty then none
  else if matchesWhole m k then some ⟨nm, resp, k.length⟩
  else none

/-- Spec-side: all candidates one rule contributes, in scan order;
rules with a falsy intent name contribute none. -/
def ruleCands (L m : JStr) (it : Obj) : List Cand :=
  let nm := intentNameOf it
  if !truthy nm then []
  else (extractPatterns it).filterMap (patternCand m nm (pickResponse it L))

/-- Spec-side: every candidate of the whole rule list, in scan order. -/
def candidatesOf (L m : JStr) (intents : List Obj) : List Cand :=
  intents.flatMap (ruleCands L m)

/-- Spec-side selection policy: the first-encountered candidate whose
specificity is greatest among all candidates. -/
def specSelect (l : List Cand) : Option Cand :=
  l.find? (fun c => l.all (fun d => d.score ≤ c.score))

/-- Spec-side quote escaping: each `"` inside a field is written `""`. -/
def dblQuotes : JStr → JStr
  | [] => []
  | c :: t => if c = '"' then '"' :: '"' :: dblQuotes t else c :: dblQuotes t

/-- Spec-side: a field enclosed in double quotes with its quotes
escaped. -/
def encField (f : JStr) : JStr := '"' :: (dblQuotes f ++ ['"'])

/-- Spec-side: a rule-source line whose fields are all double-quote
enclosed, joined by commas. -/
def encLine : List JStr → JStr
  | [] => []
  | [f] => encField f
  | f :: fs => encField f ++ ',' :: encLine fs

/-! ## Example rules used by the spec's acceptance examples -/

/-- A rule with the single pattern `"hi"`. -/
def hiRule : Obj :=
  [(str "intent", .s (str "greet")), (str "patterns", .s (str "hi")),
   (str "response", .s (str "Hello!"))]

/-- Intent A with the single pattern `"hotel"`. -/
def hotelRuleA : Obj :=
  [(str "intent", .s (str "A")), (str "patterns", .s (str "hotel")),
   (str "response", .s (str "Here are hotels."))]

/-- Intent B with the single pattern `"book hotel"`. -/
def bookHotelRuleB : Obj :=
  [(str "intent", .s (str "B")), (str "patterns", .s (str "book hotel")),
   (str "response", .s (str "Booking a hotel."))]

/-- A rule with responses `{en: "Hi!", fr: "Bonjour!"}`. -/
def greetRule : Obj :=
  [(str "intent", .s (str "greet")), (str "patterns", .s (str "hi")),
   (str "response_en", .s (str "Hi!")),
   (str "response_fr", .s (str "Bonjour!"))]

/-- A rule with a pattern but no response field at all. -/
def noResponseRule : Obj :=
  [(str "intent", .s (str "greet")), (str "patterns", .s (str "hi"))]

/-- Proof-side: the character just before the current scan position —
the last character of the consumed prefix, or the scan's initial
previous character when the prefix is empty. -/
def lastOr (prev : Option Char) (pre : JStr) : Option Char :=
  match pre.getLast? with
  | some c => some c
  | none => prev

/-- Proof-side: the strict-improvement fold the nested scan loops
perform over the candidate stream. -/
def foldBest : Option Cand → List Cand → Option Cand
  | best, [] => best
  | none, c :: t => foldBest (some c) t
  | some b, c :: t =>
      if c.score > b.score then foldBest (some c) t else foldBest (some b) t

/-- Proof-side: what `stripAccents` does to one character. -/
def stripChar (c : Char) : JStr :=
  (nfdChar c).filter (fun d => !combining d)

/-! ## Helper lemmas -/

/-- Disjunction `a || b` is `undefined` only if both sides can be. -/
theorem jsOr_ne_undefined (a b : JVal) (hb : b ≠ .undefined) : jsOr a b ≠ .undefined := by
  unfold jsOr
  split
  · rename_i h
    intro he
    rw [he] at h
    simp [truthy] at h
  · exact hb

/-- The English chain always ends in `""`, never `undefined`. -/
theorem enOf_ne_undefined (it : Obj) : enOf it ≠ .undefined := by
  unfold enOf
  apply jsOr_ne_undefined
  apply jsOr_ne_undefined
  apply jsOr_ne_undefined
  apply jsOr_ne_undefined
  simp

/-- Re-defaulting a non-`undefined` value to `""` does not change its
string conversion. -/
theorem jsString_jsOr_empty (v : JVal) (h : v ≠ .undefined) :
    jsString (jsOr v (.s [])) = jsString v := by
  cases v with
  | undefined => exact absurd rfl h
  | s cs =>
      by_cases hc : cs.isEmpty
      · simp at hc
        simp [jsOr, truthy, jsString, hc]
      · simp [jsOr, truthy, hc]
  | arr xs => simp [jsOr, truthy]

/-- One step of the inner pattern loop. -/
theorem patLoop_cons (m : JStr) (nm : JVal) (resp : JStr) (p : JStr)
    (ps : List JStr) (best : Option Cand) :
    patLoop m nm resp (p :: ps) best =
      (if (norm p).isEmpty then patLoop m nm resp ps best
       else if matchesWhole m (norm p) then
         match best with
         | none => patLoop m nm resp ps (some ⟨nm, resp, (norm p).length⟩)
         | some b =>
             if (norm p).length > b.score then
               patLoop m nm resp ps (some ⟨nm, resp, (norm p).length⟩)
             else patLoop m nm resp ps (some b)
       else patLoop m nm resp ps best) := rfl

/-- One step of the outer rule loop. -/
theorem intentLoop_cons (L m : JStr) (it : Obj) (rest : List Obj)
    (best : Option Cand) :
    intentLoop L m (it :: rest) best =
      (if !truthy (intentNameOf it) then intentLoop L m rest best
       else if (extractPatterns it).isEmpty then intentLoop L m rest best
       else intentLoop L m rest
         (patLoop m (intentNameOf it) (pickResponse it L)
           (extractPatterns it) best)) := rfl

/-- A pattern list none of whose patterns match leaves the running best
candidate unchanged. -/
theorem patLoop_of_nomatch (m : JStr) (nm : JVal) (resp : JStr)
    (ps : List JStr) (best : Option Cand)
    (h : ∀ p ∈ ps, matchesWhole m (norm p) = false) :
    patLoop m nm resp ps best = best := by
  induction ps with
  | nil => rfl
  | cons p ps ih =>
      have hp := h p (List.mem_cons_self p ps)
      have hrest : ∀ q ∈ ps, matchesWhole m (norm q) = false :=
        fun q hq => h q (List.mem_cons_of_mem p hq)
      unfold patLoop
      by_cases hk : (norm p).isEmpty
      · simp [hk, ih hrest]
      · simp [hk, hp, ih hrest]

/-- A rule list none of whose patterns match leaves the running best
candidate unchanged. -/
theorem intentLoop_of_nomatch (L m : JStr) (intents : List Obj)
    (best : Option Cand)
    (h : ∀ it ∈ intents, ∀ p ∈ extractPatterns it,
        matchesWhole m (norm p) = false) :
    intentLoop L m intents best = best := by
  induction intents with
  | nil => rfl
  | cons it rest ih =>
      have hit := h it (List.mem_cons_self it rest)
      have hrest : ∀ it' ∈ rest, ∀ p ∈ extractPatterns it',
          matchesWhole m (norm p) = false :=
        fun it' h1 => h it' (List.mem_cons_of_mem it h1)
      unfold intentLoop
      by_cases hn : truthy (intentNameOf it)
      · by_cases hp : (extractPatterns it).isEmpty
        · simp [hn, hp, ih hrest]
        · simp [hn, hp, patLoop_of_nomatch _ _ _ _ _ hit, ih hrest]
      · simp [hn, ih hrest]

/-- Skipping one rule of the scan: a rule whose extracted pattern list
is empty never changes the running best candidate. -/
theorem intentLoop_skip_empty (L m : JStr) (it : Obj)
    (hit : extractPatterns it = []) (pre post : List Obj)
    (best : Option Cand) :
    intentLoop L m (pre ++ it :: post) best =
      intentLoop L m (pre ++ post) best := by
  induction pre generalizing best with
  | nil =>
      simp only [List.nil_append]
      rw [intentLoop_cons]
      by_cases hn : truthy (intentNameOf it)
      · simp [hn, hit]
      · simp [hn]
  | cons o pre ih =>
      simp only [List.cons_append]
      rw [intentLoop_cons, intentLoop_cons L m o (pre ++ post)]
      by_cases hn : truthy (intentNameOf o)
      · by_cases hp : (extractPatterns o).isEmpty
        · simp [hn, hp, ih]
        · simp [hn, hp, ih]
      · simp [hn, ih]

/-- Unfolding of `matchIntent` into guard, scan, and projection. -/
theorem matchIntent_unfold (intents : List Obj) (message lang : JStr) :
    matchIntent intents message lang =
      (if message.isEmpty then none
       else
         match intentLoop (normalizeLang lang)
             (norm (subjectFor message lang)) intents none with
         | none => none
         | some best => some (best.intent, best.response)) := rfl

/-! ## Claim theorems -/

/-- C3: with language resolving to French, the utterance
"je veux réserver un hôtel" is rewritten onto English vocabulary and
resolves to the same intent as the English utterance "book hotel"
against an English-only rule set (namely intent `B`); and whenever the
resolved language is English the rewriter is never applied, so the raw
utterance itself is the comparison subject. -/
theorem french_bridging_to_english :
    (∀ message lang : JStr, normalizeLang lang = str "en" →
        subjectFor message lang = message)
  ∧ matchIntent [hotelRuleA, bookHotelRuleB]
      (str "je veux réserver un hôtel") (str "fr")
      = matchIntent [hotelRuleA, bookHotelRuleB] (str "book hotel") (str "en")
  ∧ matchIntent [hotelRuleA, bookHotelRuleB]
      (str "je veux réserver un hôtel") (str "fr")
      = some (.s (str "B"), str "Booking a hotel.") := by
  refine ⟨?_, by decide, by decide⟩
  intro message lang h
  unfold subjectFor
  rw [h]
  simp [str]

/-- Witness for `french_bridging_to_english`: the rewriter is skipped at
the concrete language hint `"en"`. -/
theorem french_bridging_to_english_witness :
    subjectFor (str "hello") (str "en") = str "hello" :=
  french_bridging_to_english.1 (str "hello") (str "en") (by decide)

/-- C4: the returned response is the rule's French response when the
resolved language is French and a non-empty French response exists;
otherwise the English/default response; if neither exists, the empty
string — and that is still a valid match, not a failure.  The rule
`{en: "Hi!", fr: "Bonjour!"}` answers "Bonjour!" for `"fr"` and "Hi!"
for `"en"` or an unrecognized code. -/
theorem response_localization :
    (∀ (it : Obj) (lang : JStr), normalizeLang lang = str "fr" →
        truthy (frOf it) = true → jsTrim (jsString (frOf it)) ≠ [] →
        pickResponse it lang = jsTrim (jsString (frOf it)))
  ∧ (∀ (it : Obj) (lang : JStr), normalizeLang lang ≠ str "fr" →
        pickResponse it lang = jsTrim (jsString (enOf it)))
  ∧ (∀ (it : Obj) (lang : JStr), jsTrim (jsString (frOf it)) = [] →
        pickResponse it lang = jsTrim (jsString (enOf it)))
  ∧ (∀ (it : Obj) (lang : JStr), frOf it = .s [] → enOf it = .s [] →
        pickResponse it lang = [])
  ∧ pickResponse greetRule (str "fr") = str "Bonjour!"
  ∧ pickResponse greetRule (str "en") = str "Hi!"
  ∧ pickResponse greetRule (str "de") = str "Hi!"
  ∧ matchIntent [noResponseRule] (str "hi") (str "en")
      = some (.s (str "greet"), []) := by
  refine ⟨?_, ?_, ?_, ?_, by decide, by decide, by decide, by decide⟩
  · intro it lang h1 h2 h3
    simp only [pickResponse, h1, h2]
    simp only [ne_eq, ← List.isEmpty_iff] at h3
    simp [h3]
  · intro it lang h1
    simp only [pickResponse]
    rw [if_neg, jsString_jsOr_empty _ (enOf_ne_undefined it)]
    simp [h1]
  · intro it lang h1
    simp only [pickResponse, h1]
    rw [if_neg, jsString_jsOr_empty _ (enOf_ne_undefined it)]
    simp
  · intro it lang h1 h2
    simp only [pickResponse, h1, h2]
    simp [truthy, jsOr, jsString, jsTrim]

/-- Witness for `response_localization`: each conditional branch
exercised at a concrete rule and language. -/
theorem response_localization_witness :
    pickResponse greetRule (str "fr") = jsTrim (jsString (frOf greetRule))
  ∧ pickResponse greetRule (str "de") = jsTrim (jsString (enOf greetRule))
  ∧ pickResponse noResponseRule (str "fr")
      = jsTrim (jsString (enOf noResponseRule))
  ∧ pickResponse noResponseRule (str "fr") = [] :=
  ⟨response_localization.1 greetRule (str "fr") (by decide) (by decide)
      (by decide),
   response_localization.2.1 greetRule (str "de") (by decide),
   response_localization.2.2.1 noResponseRule (str "fr") (by decide),
   response_localization.2.2.2.1 noResponseRule (str "fr") (by decide)
      (by decide)⟩

/-- C5: the matcher returns `none` when the utterance is empty, and
`none` when no pattern of any rule matches; this absence is a value
distinct from a successful match whose response is the empty string. -/
theorem no_match_is_absent :
    (∀ (intents : List Obj) (lang : JStr), matchIntent intents [] lang = none)
  ∧ (∀ (intents : List Obj) (message lang : JStr),
        (∀ it ∈ intents, ∀ p ∈ extractPatterns it,
          matchesWhole (norm (subjectFor message lang)) (norm p) = false) →
        matchIntent intents message lang = none)
  ∧ matchIntent [hotelRuleA, bookHotelRuleB] (str "what is the weather")
      (str "en") = none
  ∧ matchIntent [noResponseRule] (str "hi") (str "en")
      = some (.s (str "greet"), [])
  ∧ (∀ r : JVal × JStr, (some r : Option (JVal × JStr)) ≠ none) := by
  refine ⟨?_, ?_, by decide, by decide, fun r => by simp⟩
  · intro intents lang
    rw [matchIntent_unfold]
    simp
  · intro intents message lang h
    rw [matchIntent_unfold]
    by_cases hm : message.isEmpty
    · simp [hm]
    · simp only [hm, if_false]
      rw [intentLoop_of_nomatch _ _ _ _ h]
      simp

/-- Witness for `no_match_is_absent`: a rule set whose lone pattern
fails the whole-word test against the concrete subject. -/
theorem no_match_is_absent_witness :
    matchIntent [hiRule] (str "there are many things to do") (str "en")
      = none :=
  no_match_is_absent.2.1 [hiRule] (str "there are many things to do")
    (str "en") (by decide)

/-- C7: the matcher path is a total function — every invocation yields
either a result or `null` — and a rule whose extracted pattern list is
empty contributes zero candidates: deleting it from the rule list never
changes the outcome. -/
theorem matcher_total_and_skips_patternless :
    (∀ (intents : List Obj) (message lang : JStr),
        matchIntent intents message lang = none ∨
        ∃ r, matchIntent intents message lang = some r)
  ∧ (∀ (pre post : List Obj) (it : Obj) (message lang : JStr),
        extractPatterns it = [] →
        matchIntent (pre ++ it :: post) message lang =
          matchIntent (pre ++ post) message lang) := by
  constructor
  · intro intents message lang
    cases h : matchIntent intents message lang with
    | none => exact Or.inl rfl
    | some r => exact Or.inr ⟨r, rfl⟩
  · intro pre post it message lang hit
    rw [matchIntent_unfold, matchIntent_unfold]
    by_cases hm : message.isEmpty
    · simp [hm]
    · simp only [hm, if_false]
      rw [intentLoop_skip_empty _ _ _ hit]

/-- Witness for `matcher_total_and_skips_patternless`: dropping a
concrete pattern-less rule leaves a concrete match unchanged. -/
theorem matcher_total_and_skips_patternless_witness :
    matchIntent ([hotelRuleA] ++ [(str "intent", JVal.s (str "empty"))] ::
        [bookHotelRuleB]) (str "book hotel") (str "en") =
      matchIntent ([hotelRuleA] ++ [bookHotelRuleB]) (str "book hotel")
        (str "en") :=
  matcher_total_and_skips_patternless.2 [hotelRuleA] [bookHotelRuleB]
    [(str "intent", JVal.s (str "empty"))] (str "book hotel") (str "en")
    (by decide)

/-- Association lookup misses every list whose keys all differ from the
probe. -/
theorem lookup_none_of_ne {β : Type} (a : Char) (l : List (Char × β))
    (h : ∀ p ∈ l, a ≠ p.1) : l.lookup a = none := by
  induction l with
  | nil => rfl
  | cons p t ih =>
      obtain ⟨k, v⟩ := p
      have hk : a ≠ k := h (k, v) (List.mem_cons_self _ _)
      have : (a == k) = false := by simpa using hk
      simp only [List.lookup, this]
      exact ih (fun q hq => h q (List.mem_cons_of_mem _ hq))

/-- A successful association lookup exhibits its table entry. -/
theorem mem_of_lookup_eq_some {β : Type} (a : Char) (b : β)
    (l : List (Char × β)) (h : l.lookup a = some b) : (a, b) ∈ l := by
  induction l with
  | nil => simp [List.lookup] at h
  | cons p t ih =>
      obtain ⟨k, v⟩ := p
      by_cases hk : a = k
      · subst hk
        have hbeq : (a == a) = true := beq_self_eq_true a
        simp only [List.lookup_cons, hbeq, Option.some.injEq] at h
        subst h
        exact List.mem_cons_self _ _
      · have hbeq : (a == k) = false := by simpa using hk
        simp only [List.lookup_cons, hbeq] at h
        exact List.mem_cons_of_mem _ (ih h)

/-- Lower-casing never touches a whitespace character. -/
theorem jsToLower_of_ws (c : Char) (h : jsWhitespace c = true) :
    jsToLower c = c := by
  unfold jsToLower
  rw [lookup_none_of_ne c lowerTable]
  · rfl
  · intro p hp he
    have hall : ∀ p ∈ lowerTable, jsWhitespace p.1 = false := by decide
    rw [he] at h
    rw [hall p hp] at h
    exact Bool.false_ne_true h

/-- Lower-casing is idempotent. -/
theorem jsToLower_idem (c : Char) : jsToLower (jsToLower c) = jsToLower c := by
  unfold jsToLower
  cases hl : lowerTable.lookup c with
  | none => simp [hl]
  | some v =>
      simp only [hl, Option.getD_some]
      rw [lookup_none_of_ne v lowerTable]
      · rfl
      · intro p hp he
        have hmem := mem_of_lookup_eq_some c v lowerTable hl
        have hall : ∀ q ∈ lowerTable, ∀ p ∈ lowerTable, q.2 ≠ p.1 := by decide
        exact hall (c, v) hmem p hp he

/-- Trimming an all-whitespace string yields the empty string. -/
theorem jsTrim_of_all_ws (s : JStr) (h : ∀ c ∈ s, jsWhitespace c = true) :
    jsTrim s = [] := by
  unfold jsTrim
  rw [List.dropWhile_eq_nil_iff.mpr h]
  rfl

/-- Normalizing an all-whitespace string yields the empty string. -/
theorem norm_of_all_ws (s : JStr) (h : ∀ c ∈ s, jsWhitespace c = true) :
    norm s = [] := by
  show stripAccents (jsTrim (s.map jsToLower)) = []
  have hmap : s.map jsToLower = s := by
    induction s with
    | nil => rfl
    | cons c t ih =>
        simp only [List.map_cons]
        rw [jsToLower_of_ws c (h c (List.mem_cons_self _ _)),
          ih (fun d hd => h d (List.mem_cons_of_mem _ hd))]
  rw [hmap, jsTrim_of_all_ws s h]
  rfl

/-- The rewriter passes through any message that normalizes to the
empty string. -/
theorem mapFrench_of_norm_empty (message : JStr) (h : norm message = []) :
    mapFrenchToEnglishForIntentMatching message = message := by
  unfold mapFrenchToEnglishForIntentMatching
  rw [h]
  rfl

/-- Nothing whole-word matches inside the empty subject. -/
theorem matchesWhole_nil (k : JStr) : matchesWhole [] k = false := by
  cases k with
  | nil => rfl
  | cons c t => rfl

/-- With an empty comparison subject the pattern loop never produces a
candidate. -/
theorem patLoop_nil_subject (nm : JVal) (resp : JStr) (ps : List JStr)
    (best : Option Cand) : patLoop [] nm resp ps best = best :=
  patLoop_of_nomatch [] nm resp ps best
    (fun p _ => matchesWhole_nil (norm p))

/-- With an empty comparison subject the rule loop never produces a
candidate. -/
theorem intentLoop_nil_subject (L : JStr) (intents : List Obj)
    (best : Option Cand) : intentLoop L [] intents best = best :=
  intentLoop_of_nomatch L [] intents best
    (fun _ _ p _ => matchesWhole_nil (norm p))

/-- C10: a non-empty utterance of only whitespace characters passes the
empty-input guard but normalizes to the empty string, so no pattern can
match and the matcher returns `null`. -/
theorem whitespace_only_returns_none :
    ∀ (intents : List Obj) (message lang : JStr), message ≠ [] →
      (∀ c ∈ message, jsWhitespace c = true) →
      matchIntent intents message lang = none := by
  intro intents message lang hne hws
  have hn : norm message = [] := norm_of_all_ws message hws
  have hsub : norm (subjectFor message lang) = [] := by
    unfold subjectFor
    by_cases hfr : normalizeLang lang = str "fr"
    · rw [if_pos hfr, mapFrench_of_norm_empty message hn]
      exact hn
    · rw [if_neg hfr]
      exact hn
  rw [matchIntent_unfold]
  have hne' : message.isEmpty = false := by
    cases message with
    | nil => exact absurd rfl hne
    | cons c t => rfl
  rw [hne']
  simp only [hsub, intentLoop_nil_subject]
  simp

/-- Witness for `whitespace_only_returns_none`: three spaces match no
rule. -/
theorem whitespace_only_returns_none_witness :
    matchIntent [hiRule] (str "   ") (str "fr") = none :=
  whitespace_only_returns_none [hiRule] (str "   ") (str "fr")
    (by decide) (by decide)

/-- Characterization: `startsWith` is prefix decomposition. -/
theorem startsWithL_iff : ∀ (s p : JStr),
    startsWithL s p = true ↔ ∃ t, s = p ++ t
  | s, [] => by simp [startsWithL]
  | [], b :: p => by
      simp only [startsWithL, List.cons_append]
      constructor
      · intro h
        exact absurd h (by simp)
      · rintro ⟨t, ht⟩
        cases ht
  | a :: s, b :: p => by
      simp only [startsWithL, Bool.and_eq_true, decide_eq_true_eq]
      constructor
      · rintro ⟨rfl, h⟩
        obtain ⟨t, rfl⟩ := (startsWithL_iff s p).mp h
        exact ⟨t, rfl⟩
      · rintro ⟨t, ht⟩
        rw [List.cons_append] at ht
        injection ht with h1 h2
        subst h1
        exact ⟨rfl, (startsWithL_iff s p).mpr ⟨t, h2⟩⟩

/-- Characterization: `matchAt` is a bounded occurrence at the very start. -/
theorem matchAt_iff (prev : Option Char) (p s : JStr) :
    matchAt prev p s = true ↔ ∃ post, s = p ++ post ∧
      boundaryOk prev p.head? = true ∧
      boundaryOk p.getLast? post.head? = true := by
  unfold matchAt
  simp only [Bool.and_eq_true]
  constructor
  · rintro ⟨⟨hs, h1⟩, h2⟩
    obtain ⟨post, rfl⟩ := (startsWithL_iff s p).mp hs
    rw [List.drop_left] at h2
    exact ⟨post, rfl, h1, h2⟩
  · rintro ⟨post, rfl, h1, h2⟩
    refine ⟨⟨(startsWithL_iff _ p).mpr ⟨post, rfl⟩, h1⟩, ?_⟩
    rw [List.drop_left]
    exact h2

/-- Extending the consumed prefix by one character shifts the carried
previous character. -/
theorem lastOr_cons (prev : Option Char) (c : Char) (l : JStr) :
    lastOr prev (c :: l) = lastOr (some c) l := by
  cases l with
  | nil => rfl
  | cons d t =>
      unfold lastOr
      rw [List.getLast?_cons_cons]
      cases h : (d :: t).getLast? with
      | none => simp at h
      | some e => rfl

/-- With no carried character the previous character is the prefix's
last. -/
theorem lastOr_none (pre : JStr) : lastOr none pre = pre.getLast? := by
  unfold lastOr
  cases h : pre.getLast? <;> rfl

/-- The scan finds exactly the bounded occurrences. -/
theorem scanW_iff (p : JStr) : ∀ (s : JStr) (prev : Option Char),
    scanW p prev s = true ↔ ∃ pre post, s = pre ++ p ++ post ∧
      boundaryOk (lastOr prev pre) p.head? = true ∧
      boundaryOk p.getLast? post.head? = true
  | [], prev => by
      rw [scanW]
      simp only [Bool.or_eq_true]
      constructor
      · intro h
        rcases h with h | h
        · obtain ⟨post, heq, h1, h2⟩ := (matchAt_iff prev p []).mp h
          exact ⟨[], post, by simpa using heq, h1, h2⟩
        · cases h
      · rintro ⟨pre, post, heq, h1, h2⟩
        left
        apply (matchAt_iff prev p []).mpr
        have h3 := heq.symm
        rw [List.append_assoc, List.append_eq_nil] at h3
        obtain ⟨hpre, hrest⟩ := h3
        subst hpre
        exact ⟨post, by simpa using heq, h1, h2⟩
  | c :: s, prev => by
      rw [scanW]
      simp only [Bool.or_eq_true]
      constructor
      · intro h
        rcases h with h | h
        · obtain ⟨post, heq, h1, h2⟩ := (matchAt_iff prev p (c :: s)).mp h
          exact ⟨[], post, by simpa using heq, h1, h2⟩
        · obtain ⟨pre, post, heq, h1, h2⟩ := ((scanW_iff p s (some c)).mp h)
          refine ⟨c :: pre, post, ?_, ?_, h2⟩
          · rw [heq]
            simp
          · rw [lastOr_cons]
            exact h1
      · rintro ⟨pre, post, heq, h1, h2⟩
        cases pre with
        | nil =>
            left
            apply (matchAt_iff prev p (c :: s)).mpr
            exact ⟨post, by simpa using heq, h1, h2⟩
        | cons d pre =>
            right
            apply (scanW_iff p s (some c)).mpr
            simp only [List.cons_append] at heq
            injection heq with hcd hs
            subst hcd
            rw [lastOr_cons] at h1
            exact ⟨pre, post, hs, h1, h2⟩

/-- C1: `matchesWhole` holds exactly when the pattern occurs in the
subject as a contiguous substring bounded by word boundaries on both
sides; hence pattern "hi" does not fire on "there are many things to
do" but does fire on "hi there", through the full matcher path. -/
theorem whole_word_matching :
    (∀ m p : JStr, matchesWhole m p = true ↔
        (p ≠ [] ∧ ∃ pre post, m = pre ++ p ++ post ∧
          boundaryOk pre.getLast? p.head? = true ∧
          boundaryOk p.getLast? post.head? = true))
  ∧ matchIntent [hiRule] (str "there are many things to do") (str "en")
      = none
  ∧ matchIntent [hiRule] (str "hi there") (str "en")
      = some (.s (str "greet"), str "Hello!") := by
  refine ⟨?_, by decide, by decide⟩
  intro m p
  unfold matchesWhole
  simp only [Bool.and_eq_true, Bool.not_eq_true']
  rw [scanW_iff]
  have hemp : p.isEmpty = false ↔ p ≠ [] := by cases p <;> simp
  constructor
  · rintro ⟨hne, pre, post, heq, h1, h2⟩
    rw [lastOr_none] at h1
    exact ⟨hemp.mp hne, pre, post, heq, h1, h2⟩
  · rintro ⟨hne, pre, post, heq, h1, h2⟩
    refine ⟨hemp.mpr hne, pre, post, heq, ?_, h2⟩
    rw [lastOr_none]
    exact h1

/-- The candidate fold does nothing on an empty stream. -/
theorem foldBest_nil (best : Option Cand) : foldBest best [] = best := by
  cases best <;> rfl

/-- Unfolding of the candidate fold on a cons cell. -/
theorem foldBest_cons (best : Option Cand) (c : Cand) (t : List Cand) :
    foldBest best (c :: t) =
      (match best with
       | none => foldBest (some c) t
       | some b =>
           if c.score > b.score then foldBest (some c) t
           else foldBest (some b) t) := by
  cases best <;> rfl

/-- The inner pattern loop is the strict-improvement fold over that
rule's candidate stream. -/
theorem patLoop_eq_foldBest (m : JStr) (nm : JVal) (resp : JStr) :
    ∀ (ps : List JStr) (best : Option Cand),
      patLoop m nm resp ps best =
        foldBest best (ps.filterMap (patternCand m nm resp))
  | [], best => by rw [List.filterMap_nil, foldBest_nil]; rfl
  | p :: ps, best => by
      rw [patLoop_cons, List.filterMap_cons]
      by_cases hk : (norm p).isEmpty
      · have hf : patternCand m nm resp p = none := by
          simp [patternCand, hk]
        rw [if_pos hk, hf]
        exact patLoop_eq_foldBest m nm resp ps best
      · by_cases hw : matchesWhole m (norm p) = true
        · have hf : patternCand m nm resp p =
              some ⟨nm, resp, (norm p).length⟩ := by
            simp [patternCand, hk, hw]
          rw [if_neg hk, if_pos hw, hf, foldBest_cons]
          cases best with
          | none => exact patLoop_eq_foldBest m nm resp ps _
          | some b =>
              dsimp only
              by_cases hs : (norm p).length > b.score
              · simp only [if_pos hs]
                exact patLoop_eq_foldBest m nm resp ps _
              · simp only [if_neg hs]
                exact patLoop_eq_foldBest m nm resp ps _
        · have hf : patternCand m nm resp p = none := by
            simp [patternCand, hk, hw]
          rw [if_neg hk, if_neg hw, hf]
          exact patLoop_eq_foldBest m nm resp ps best

/-- The candidate fold splits over list concatenation. -/
theorem foldBest_append : ∀ (l₁ l₂ : List Cand) (best : Option Cand),
    foldBest best (l₁ ++ l₂) = foldBest (foldBest best l₁) l₂
  | [], l₂, best => by rw [List.nil_append, foldBest_nil]
  | c :: t, l₂, best => by
      rw [List.cons_append, foldBest_cons, foldBest_cons]
      cases best with
      | none => exact foldBest_append t l₂ _
      | some b =>
          dsimp only
          by_cases hs : c.score > b.score
          · simp only [if_pos hs]
            exact foldBest_append t l₂ _
          · simp only [if_neg hs]
            exact foldBest_append t l₂ _

/-- The outer rule loop is the strict-improvement fold over the whole
candidate stream in scan order. -/
theorem intentLoop_eq_foldBest (L m : JStr) :
    ∀ (intents : List Obj) (best : Option Cand),
      intentLoop L m intents best = foldBest best (candidatesOf L m intents)
  | [], best => by rw [show candidatesOf L m [] = [] from rfl, foldBest_nil]; rfl
  | it :: rest, best => by
      rw [intentLoop_cons]
      have hc : candidatesOf L m (it :: rest) =
          ruleCands L m it ++ candidatesOf L m rest := by
        simp [candidatesOf]
      rw [hc, foldBest_append]
      by_cases hn : truthy (intentNameOf it)
      · by_cases hp : (extractPatterns it).isEmpty
        · have hr : ruleCands L m it = [] := by
            have hex : extractPatterns it = [] := by
              simpa [List.isEmpty_iff] using hp
            simp [ruleCands, hex]
          rw [hr, foldBest_nil]
          simp only [hn, Bool.not_true, Bool.false_eq_true, if_false, hp,
            if_true]
          exact intentLoop_eq_foldBest L m rest best
        · have hr : ruleCands L m it =
              (extractPatterns it).filterMap
                (patternCand m (intentNameOf it) (pickResponse it L)) := by
            simp [ruleCands, hn]
          simp only [hn, Bool.not_true, Bool.false_eq_true, if_false, hp,
            if_false]
          rw [hr, ← patLoop_eq_foldBest]
          exact intentLoop_eq_foldBest L m rest _
      · have hr : ruleCands L m it = [] := by
          simp [ruleCands, hn]
        rw [hr, foldBest_nil]
        simp only [hn, Bool.not_false, if_true]
        exact intentLoop_eq_foldBest L m rest best

/-- Search `find?` only depends on the predicate's values. -/
theorem find?_ext {α : Type} (p q : α → Bool) (h : ∀ x, p x = q x) :
    ∀ l : List α, l.find? p = l.find? q
  | [] => rfl
  | a :: l => by
      rw [List.find?_cons, List.find?_cons, h a, find?_ext p q h l]

/-- A single candidate is always selected. -/
theorem specSelect_singleton (b : Cand) : specSelect [b] = some b := by
  simp [specSelect]

/-- A later candidate dominated by the head can be removed without
changing the selection. -/
theorem specSelect_cons_le {b c : Cand} (t : List Cand)
    (h : c.score ≤ b.score) :
    specSelect (b :: c :: t) = specSelect (b :: t) := by
  unfold specSelect
  have hext : ∀ x : Cand,
      ((b :: c :: t).all (fun d => d.score ≤ x.score)) =
      ((b :: t).all (fun d => d.score ≤ x.score)) := by
    intro x
    by_cases hbx : b.score ≤ x.score
    · simp [List.all_cons, hbx, le_trans h hbx]
    · simp [List.all_cons, hbx]
  rw [find?_ext _ _ hext]
  by_cases hPb : ((b :: t).all (fun d => d.score ≤ b.score)) = true
  · simp only [List.find?_cons, hPb]
  · rw [Bool.not_eq_true] at hPb
    have hPc : ((b :: t).all (fun d => d.score ≤ c.score)) = false := by
      rw [← Bool.not_eq_true]
      intro hcon
      rw [List.all_eq_true] at hcon
      rw [← Bool.not_eq_true] at hPb
      apply hPb
      rw [List.all_eq_true]
      intro d hd
      have hdc := hcon d hd
      rw [decide_eq_true_eq] at hdc ⊢
      exact le_trans hdc h
    simp only [List.find?_cons, hPb, hPc]

/-- A head strictly dominated by the next candidate can be removed
without changing the selection. -/
theorem specSelect_cons_lt {b c : Cand} (t : List Cand)
    (h : b.score < c.score) :
    specSelect (b :: c :: t) = specSelect (c :: t) := by
  unfold specSelect
  have hext : ∀ x : Cand,
      ((b :: c :: t).all (fun d => d.score ≤ x.score)) =
      ((c :: t).all (fun d => d.score ≤ x.score)) := by
    intro x
    by_cases hcx : c.score ≤ x.score
    · simp [List.all_cons, hcx, le_trans (le_of_lt h) hcx]
    · simp [List.all_cons, hcx]
  rw [find?_ext _ _ hext]
  have hPb : ((c :: t).all (fun d => d.score ≤ b.score)) = false := by
    have hnle : ¬ c.score ≤ b.score := Nat.not_le.mpr h
    simp [List.all_cons, hnle]
  simp only [List.find?_cons, hPb]

/-- The strict-improvement fold started at `b` selects the first
candidate of greatest score among `b` and the stream. -/
theorem foldBest_some_eq : ∀ (t : List Cand) (b : Cand),
    foldBest (some b) t = specSelect (b :: t)
  | [], b => by rw [specSelect_singleton]; rfl
  | c :: t, b => by
      rw [foldBest_cons]
      dsimp only
      by_cases hs : c.score > b.score
      · rw [if_pos hs, foldBest_some_eq t c, specSelect_cons_lt t hs]
      · rw [if_neg hs, foldBest_some_eq t b,
          specSelect_cons_le t (le_of_not_lt hs)]

/-- The strict-improvement fold implements the spec's selection policy:
first-encountered candidate of greatest specificity. -/
theorem foldBest_none_eq : ∀ l : List Cand, foldBest none l = specSelect l
  | [] => rfl
  | c :: l => by
      rw [foldBest_cons]
      dsimp only
      exact foldBest_some_eq l c

/-- C2: among all matching patterns the matcher returns the candidate
of greatest specificity (normalized pattern length), ties broken by
first-encountered order during the scan; in particular "book hotel"
(intent B) beats "hotel" (intent A) on "I want to book hotel now". -/
theorem specificity_selection :
    (∀ (intents : List Obj) (message lang : JStr),
        matchIntent intents message lang =
          if message.isEmpty then none
          else
            (specSelect (candidatesOf (normalizeLang lang)
                (norm (subjectFor message lang)) intents)).map
              (fun c => (c.intent, c.response)))
  ∧ matchIntent [hotelRuleA, bookHotelRuleB] (str "I want to book hotel now")
      (str "en") = some (.s (str "B"), str "Booking a hotel.") := by
  refine ⟨?_, by decide⟩
  intro intents message lang
  rw [matchIntent_unfold]
  by_cases hm : message.isEmpty
  · rw [if_pos hm, if_pos hm]
  · rw [if_neg hm, if_neg hm, intentLoop_eq_foldBest, foldBest_none_eq]
    cases h : specSelect (candidatesOf (normalizeLang lang)
        (norm (subjectFor message lang)) intents) with
    | none => rfl
    | some c => rfl

/-- Mapping a function that fixes every member is the identity. -/
theorem map_self_of {α : Type} (f : α → α) :
    ∀ l : List α, (∀ x ∈ l, f x = x) → l.map f = l
  | [], _ => rfl
  | x :: l, h => by
      rw [List.map_cons, h x (List.mem_cons_self _ _),
        map_self_of f l (fun y hy => h y (List.mem_cons_of_mem _ hy))]

/-- Parser step: a doubled quote appends one literal quote. -/
theorem goQQ (inQ : Bool) (cur rest : JStr) (acc : List JStr) :
    parseCSVLineGo inQ cur ('"' :: '"' :: rest) acc =
      parseCSVLineGo inQ (cur ++ ['"']) rest acc := rfl

/-- Parser step: a lone quote toggles the in-quotes flag. -/
theorem goQ (inQ : Bool) (cur rest : JStr) (acc : List JStr)
    (h : rest.head? ≠ some '"') :
    parseCSVLineGo inQ cur ('"' :: rest) acc =
      parseCSVLineGo (!inQ) cur rest acc := by
  cases rest with
  | nil => rfl
  | cons c r =>
      have hc : c ≠ '"' := by
        intro he
        exact h (by rw [he]; rfl)
      simp [parseCSVLineGo, hc]

/-- Parser step: a comma outside quotes closes the field. -/
theorem goCommaOut (cur rest : JStr) (acc : List JStr) :
    parseCSVLineGo false cur (',' :: rest) acc =
      parseCSVLineGo false [] rest (acc ++ [cur]) := rfl

/-- Parser step: a comma inside quotes is ordinary text. -/
theorem goCommaIn (cur rest : JStr) (acc : List JStr) :
    parseCSVLineGo true cur (',' :: rest) acc =
      parseCSVLineGo true (cur ++ [',']) rest acc := rfl

/-- Parser step: any other character is appended to the field. -/
theorem goChar (inQ : Bool) (cur rest : JStr) (acc : List JStr) (c : Char)
    (h : c ≠ '"') (h2 : c ≠ ',') :
    parseCSVLineGo inQ cur (c :: rest) acc =
      parseCSVLineGo inQ (cur ++ [c]) rest acc := by
  simp [parseCSVLineGo, h, h2]

/-- Inside a quoted field whose remaining text is quote-doubled and
closed by a quote, the parser reproduces the text verbatim. -/
theorem goBody : ∀ (t cur rest : JStr) (acc : List JStr),
    rest.head? ≠ some '"' →
    parseCSVLineGo true cur (dblQuotes t ++ '"' :: rest) acc =
      parseCSVLineGo false (cur ++ t) rest acc
  | [], cur, rest, acc, h => by
      rw [show dblQuotes [] = [] from rfl, List.nil_append,
        goQ true cur rest acc h, List.append_nil]
      rfl
  | c :: t, cur, rest, acc, h => by
      by_cases hq : c = '"'
      · subst hq
        rw [show dblQuotes ('"' :: t) = '"' :: '"' :: dblQuotes t from rfl]
        rw [List.cons_append, List.cons_append, goQQ]
        rw [goBody t (cur ++ ['"']) rest acc h]
        rw [← List.append_cons]
      · by_cases hcm : c = ','
        · subst hcm
          rw [show dblQuotes (',' :: t) = ',' :: dblQuotes t from rfl,
            List.cons_append, goCommaIn]
          rw [goBody t (cur ++ [',']) rest acc h]
          rw [← List.append_cons]
        · rw [show dblQuotes (c :: t) = c :: dblQuotes t from by
              simp [dblQuotes, hq]]
          rw [List.cons_append, goChar true cur _ acc c hq hcm]
          rw [goBody t (cur ++ [c]) rest acc h]
          rw [← List.append_cons]

/-- A whole encoded field containing at least one non-quote character
is parsed back verbatim onto the current field accumulator. -/
theorem goField : ∀ (f cur rest : JStr) (acc : List JStr),
    (∃ c ∈ f, c ≠ '"') → rest.head? ≠ some '"' →
    parseCSVLineGo false cur (encField f ++ rest) acc =
      parseCSVLineGo false (cur ++ f) rest acc
  | [], _, _, _, hex, _ => by simp at hex
  | c :: f, cur, rest, acc, hex, h => by
      by_cases hq : c = '"'
      · subst hq
        have hex' : ∃ d ∈ f, d ≠ '"' := by
          obtain ⟨d, hd, hdq⟩ := hex
          rcases List.mem_cons.mp hd with rfl | hd'
          · exact absurd rfl hdq
          · exact ⟨d, hd', hdq⟩
        have hsplit : encField ('"' :: f) ++ rest =
            '"' :: '"' :: (encField f ++ rest) := by
          simp [encField, dblQuotes]
        rw [hsplit, goQQ, goField f (cur ++ ['"']) rest acc hex' h,
          ← List.append_cons]
      · have hsplit : encField (c :: f) ++ rest =
            '"' :: c :: (dblQuotes f ++ '"' :: rest) := by
          simp [encField, dblQuotes, hq]
        rw [hsplit, goQ false cur _ acc (by simp [hq])]
        by_cases hcm : c = ','
        · subst hcm
          rw [show (!false) = true from rfl, goCommaIn,
            goBody f (cur ++ [',']) rest acc h, ← List.append_cons]
        · rw [show (!false) = true from rfl,
            goChar true cur _ acc c hq hcm,
            goBody f (cur ++ [c]) rest acc h, ← List.append_cons]

/-- A whole encoded line of such fields parses back to exactly those
fields, appended to the emitted-field accumulator. -/
theorem goLine : ∀ (fs : List JStr) (acc : List JStr), fs ≠ [] →
    (∀ f ∈ fs, ∃ c ∈ f, c ≠ '"') →
    parseCSVLineGo false [] (encLine fs) acc = acc ++ fs
  | [], _, hne, _ => absurd rfl hne
  | [f], acc, _, hf => by
      rw [show encLine [f] = encField f from rfl,
        ← List.append_nil (encField f),
        goField f [] [] acc (hf f (List.mem_cons_self _ _)) (by simp)]
      rfl
  | f :: f2 :: fs, acc, _, hf => by
      rw [show encLine (f :: f2 :: fs) =
          encField f ++ ',' :: encLine (f2 :: fs) from rfl]
      rw [goField f [] _ acc (hf f (List.mem_cons_self _ _)) (by simp),
        List.nil_append, goCommaOut]
      rw [goLine (f2 :: fs) (acc ++ [f]) (by simp)
        (fun g hg => hf g (List.mem_cons_of_mem _ hg))]
      simp

/-- C8 (amended): for every line of double-quote-enclosed fields, each
containing at least one non-quote character and carrying no leading or
trailing whitespace, the parser recovers the exact original field
texts: embedded commas do not split a quoted field and each doubled
quote yields one literal quote character. -/
theorem csv_quoted_roundtrip :
    ∀ fs : List JStr, fs ≠ [] →
      (∀ f ∈ fs, jsTrim f = f ∧ ∃ c ∈ f, c ≠ '"') →
      parseCSVLine (encLine fs) = fs := by
  intro fs hne hf
  unfold parseCSVLine
  rw [goLine fs [] hne (fun f h => (hf f h).2), List.nil_append]
  exact map_self_of jsTrim fs (fun f h => (hf f h).1)

/-- Witness for `csv_quoted_roundtrip`: a quoted field with an embedded
comma and a quoted field with a doubled quote both round-trip. -/
theorem csv_quoted_roundtrip_witness :
    parseCSVLine (encLine [str "hello, world", str "say \"hi\""]) =
      [str "hello, world", str "say \"hi\""] :=
  csv_quoted_roundtrip [str "hello, world", str "say \"hi\""]
    (by decide) (by decide)

/-- Counterexample to C8 as stated: the line `""` — a single
double-quote-enclosed empty field — parses to the one-character field
`"` rather than to the empty field, because the parser's doubled-quote
rule fires on the enclosing quotes themselves. -/
theorem csv_empty_field_breaks_roundtrip :
    parseCSVLine (encLine [([] : JStr)]) = [['"']] ∧
    parseCSVLine (encLine [([] : JStr)]) ≠ [([] : JStr)] := by
  refine ⟨by decide, by decide⟩

/-- Skipping one rule of the scan: a rule with a falsy intent name
never changes the running best candidate. -/
theorem intentLoop_skip_falsy (L m : JStr) (it : Obj)
    (hn : truthy (intentNameOf it) = false) (pre post : List Obj)
    (best : Option Cand) :
    intentLoop L m (pre ++ it :: post) best =
      intentLoop L m (pre ++ post) best := by
  induction pre generalizing best with
  | nil =>
      simp only [List.nil_append]
      rw [intentLoop_cons]
      simp [hn]
  | cons o pre ih =>
      simp only [List.cons_append]
      rw [intentLoop_cons, intentLoop_cons L m o (pre ++ post)]
      by_cases ho : truthy (intentNameOf o)
      · by_cases hp : (extractPatterns o).isEmpty
        · simp [ho, hp, ih]
        · simp [ho, hp, ih]
      · simp [ho, ih]

/-- C9 (amended): an empty or header-only rule source yields an empty
rule list, but a data row with an empty intent-name field is RETAINED
by the loader; it is the matcher that ignores such a row, so it
contributes no candidate to any match. -/
theorem empty_intent_rows :
    (∀ raw : JStr,
        ((splitLines raw).filter (fun l => !(jsTrim l).isEmpty)).length < 2 →
        parseIntents raw = [])
  ∧ parseIntents [] = []
  ∧ parseIntents (str "intent,patterns,response") = []
  ∧ parseIntents (str "intent,patterns,response\n,hi,Hello") =
      [[(str "intent", .s []), (str "patterns", .s (str "hi")),
        (str "response", .s (str "Hello"))]]
  ∧ (∀ (pre post : List Obj) (it : Obj) (message lang : JStr),
        truthy (intentNameOf it) = false →
        matchIntent (pre ++ it :: post) message lang =
          matchIntent (pre ++ post) message lang)
  ∧ matchIntent (parseIntents (str "intent,patterns,response\n,hi,Hello"))
      (str "hi") (str "en") = none := by
  refine ⟨?_, by decide, by decide, by decide, ?_, by decide⟩
  · intro raw h
    unfold parseIntents
    rw [if_pos h]
  · intro pre post it message lang hn
    rw [matchIntent_unfold, matchIntent_unfold]
    by_cases hm : message.isEmpty
    · rw [if_pos hm, if_pos hm]
    · rw [if_neg hm, if_neg hm, intentLoop_skip_falsy _ _ _ hn]

/-- Witness for `empty_intent_rows`: concrete instantiations of both
conditional conjuncts. -/
theorem empty_intent_rows_witness :
    parseIntents (str "intent,patterns,response") = []
  ∧ matchIntent ([hotelRuleA] ++ [(str "patterns", JVal.s (str "hi"))] ::
        [bookHotelRuleB]) (str "book hotel") (str "en") =
      matchIntent ([hotelRuleA] ++ [bookHotelRuleB]) (str "book hotel")
        (str "en") :=
  ⟨empty_intent_rows.1 (str "intent,patterns,response") (by decide),
   empty_intent_rows.2.2.2.2.1 [hotelRuleA] [bookHotelRuleB]
     [(str "patterns", JVal.s (str "hi"))] (str "book hotel") (str "en")
     (by decide)⟩

/-- Counterexample to C9 as stated: the loader does not discard the
data row whose intent-name field is empty — the loaded rule list has
length one, not zero. -/
theorem loader_retains_empty_intent_row :
    (parseIntents (str "intent,patterns,response\n,hi,Hello")).length = 1 ∧
    parseIntents (str "intent,patterns,response\n,hi,Hello") ≠ [] := by
  refine ⟨by decide, by decide⟩

/-- Lower-casing a character with no combining mark yields a character
with no combining mark. -/
theorem combining_jsToLower (c : Char) (h : combining c = false) :
    combining (jsToLower c) = false := by
  unfold jsToLower
  cases hl : lowerTable.lookup c with
  | none => simpa [hl] using h
  | some v =>
      have hmem := mem_of_lookup_eq_some c v lowerTable hl
      have htab : ∀ p ∈ lowerTable, combining p.2 = false := by decide
      simpa [hl] using htab (c, v) hmem

/-- Stripping one clean, already-lowered character produces exactly one
character, itself clean, lowered, stable and of the same whitespace
class. -/
theorem charStep (c : Char) (hc : combining c = false)
    (hl : jsToLower c = c) :
    ∃ d, stripChar c = [d] ∧ combining d = false ∧ jsToLower d = d ∧
      stripChar d = [d] ∧ jsWhitespace d = jsWhitespace c := by
  cases hdec : decompTable.lookup c with
  | none =>
      have h1 : stripChar c = [c] := by
        unfold stripChar nfdChar
        simp [hdec, List.filter, hc]
      exact ⟨c, h1, hc, hl, h1, rfl⟩
  | some l =>
      have hmem := mem_of_lookup_eq_some c l decompTable hdec
      have htab : ∀ p ∈ decompTable, jsToLower p.1 = p.1 →
          (p.2.filter (fun d => !combining d) = [p.2.headI] ∧
           combining p.2.headI = false ∧
           jsToLower p.2.headI = p.2.headI ∧
           decompTable.lookup p.2.headI = none ∧
           jsWhitespace p.2.headI = false ∧
           jsWhitespace p.1 = false) := by decide
      obtain ⟨h1, h2, h3, h4, h5, h6⟩ := htab (c, l) hmem hl
      refine ⟨l.headI, ?_, h2, h3, ?_, ?_⟩
      · unfold stripChar nfdChar
        simpa [hdec] using h1
      · unfold stripChar nfdChar
        rw [h4]
        simp [List.filter, h2]
      · rw [h5, h6]

/-- Members of the trimmed string are members of the original. -/
theorem mem_jsTrim (c : Char) (l : JStr) (h : c ∈ jsTrim l) : c ∈ l := by
  unfold jsTrim at h
  rw [List.mem_reverse] at h
  have h2 : c ∈ (l.dropWhile jsWhitespace).reverse :=
    (List.dropWhile_sublist _).subset h
  rw [List.mem_reverse] at h2
  exact (List.dropWhile_sublist _).subset h2

/-- The head surviving `dropWhile` fails the predicate. -/
theorem dropWhile_head_false {p : Char → Bool} :
    ∀ (l : JStr) (c : Char), (l.dropWhile p).head? = some c → p c = false
  | [], c => by
      intro h
      simp [List.dropWhile] at h
  | a :: t, c => by
      intro h
      rw [List.dropWhile_cons] at h
      by_cases ha : p a
      · rw [if_pos ha] at h
        exact dropWhile_head_false t c h
      · rw [if_neg ha] at h
        rw [List.head?_cons, Option.some.injEq] at h
        subst h
        simpa using ha

/-- Dropping is the identity when the head already fails the
predicate. -/
theorem dropWhile_eq_self_of_head {p : Char → Bool} (l : JStr)
    (h : ∀ c, l.head? = some c → p c = false) :
    l.dropWhile p = l := by
  cases l with
  | nil => rfl
  | cons a t =>
      rw [List.dropWhile_cons, h a rfl]
      simp

/-- Dropping a prefix twice equals dropping it once. -/
theorem dropWhile_self {p : Char → Bool} (l : JStr) :
    (l.dropWhile p).dropWhile p = l.dropWhile p :=
  dropWhile_eq_self_of_head _ (fun c hc => dropWhile_head_false l c hc)

/-- Trimming is idempotent. -/
theorem jsTrim_idem (s : JStr) : jsTrim (jsTrim s) = jsTrim s := by
  unfold jsTrim
  have hA : (((s.dropWhile jsWhitespace).reverse.dropWhile
      jsWhitespace).reverse).dropWhile jsWhitespace =
      ((s.dropWhile jsWhitespace).reverse.dropWhile jsWhitespace).reverse := by
    apply dropWhile_eq_self_of_head
    intro c hc
    rw [List.head?_reverse] at hc
    have hsplit : (s.dropWhile jsWhitespace).reverse.takeWhile jsWhitespace
        ++ (s.dropWhile jsWhitespace).reverse.dropWhile jsWhitespace =
        (s.dropWhile jsWhitespace).reverse :=
      List.takeWhile_append_dropWhile jsWhitespace _
    have hgl : (s.dropWhile jsWhitespace).reverse.getLast? = some c := by
      rw [← hsplit, List.getLast?_append, hc]
      rfl
    rw [List.getLast?_reverse] at hgl
    exact dropWhile_head_false s c hgl
  rw [hA, List.reverse_reverse, dropWhile_self]

/-- Dropping commutes with mapping a function that preserves the
predicate on every member. -/
theorem dropWhile_map_congr {p : Char → Bool} (f : Char → Char) :
    ∀ l : JStr, (∀ c ∈ l, p (f c) = p c) →
      (l.map f).dropWhile p = (l.dropWhile p).map f
  | [], _ => rfl
  | a :: t, h => by
      rw [List.map_cons, List.dropWhile_cons, List.dropWhile_cons,
        h a (List.mem_cons_self _ _)]
      by_cases ha : p a
      · rw [if_pos ha, if_pos ha]
        exact dropWhile_map_congr f t
          (fun c hc => h c (List.mem_cons_of_mem _ hc))
      · rw [if_neg ha, if_neg ha, List.map_cons]

/-- Trimming commutes with mapping a whitespace-class-preserving
function. -/
theorem jsTrim_map (f : Char → Char) (l : JStr)
    (h : ∀ c ∈ l, jsWhitespace (f c) = jsWhitespace c) :
    jsTrim (l.map f) = (jsTrim l).map f := by
  unfold jsTrim
  rw [dropWhile_map_congr f l h, ← List.map_reverse,
    dropWhile_map_congr f _
      (fun c hc => h c ((List.dropWhile_sublist _).subset
        (List.mem_reverse.mp hc))),
    ← List.map_reverse]

/-- A flat-map whose function is singleton-valued on every member is a
map. -/
theorem flatMap_singleton {α : Type} (f : α → List α) (g : α → α) :
    ∀ l : List α, (∀ c ∈ l, f c = [g c]) → l.flatMap f = l.map g
  | [], _ => rfl
  | a :: t, h => by
      rw [List.flatMap_cons, h a (List.mem_cons_self _ _), List.map_cons,
        flatMap_singleton f g t (fun c hc => h c (List.mem_cons_of_mem _ hc))]
      rfl

/-- Stripping accents acts characterwise. -/
theorem stripAccents_eq_flatMap :
    ∀ l : JStr, stripAccents l = l.flatMap stripChar
  | [] => rfl
  | c :: t => by
      show ((c :: t).flatMap nfdChar).filter (fun d => !combining d) = _
      rw [List.flatMap_cons, List.filter_append, List.flatMap_cons]
      rw [show (t.flatMap nfdChar).filter (fun d => !combining d) =
          stripAccents t from rfl]
      rw [stripAccents_eq_flatMap t]
      rfl

/-- C6 (amended): the normalizer is idempotent on every string free of
combining diacritical marks (all ordinary text), maps the empty string
to the empty string, and is case- and accent-insensitive:
`norm "HÔTEL" = norm "hotel"`.  (On strings with a bare combining mark
after trailing whitespace, stripping can expose new whitespace, so
unrestricted idempotence fails — see the counterexample.) -/
theorem norm_idempotent_on_clean :
    (∀ s : JStr, (∀ c ∈ s, combining c = false) → norm (norm s) = norm s)
  ∧ norm [] = []
  ∧ norm (str "HÔTEL") = norm (str "hotel") := by
  refine ⟨?_, rfl, by decide⟩
  intro s hs
  have hyc : ∀ c ∈ jsTrim (s.map jsToLower),
      combining c = false ∧ jsToLower c = c := by
    intro c hc
    have hc2 : c ∈ s.map jsToLower := mem_jsTrim c _ hc
    obtain ⟨a, ha, rfl⟩ := List.mem_map.mp hc2
    exact ⟨combining_jsToLower a (hs a ha), jsToLower_idem a⟩
  have hsingle : ∀ c ∈ jsTrim (s.map jsToLower),
      stripChar c = [(stripChar c).headI] ∧
      combining (stripChar c).headI = false ∧
      jsToLower (stripChar c).headI = (stripChar c).headI ∧
      stripChar (stripChar c).headI = [(stripChar c).headI] ∧
      jsWhitespace (stripChar c).headI = jsWhitespace c := by
    intro c hc
    obtain ⟨hcc, hcl⟩ := hyc c hc
    obtain ⟨d, h1, h2, h3, h4, h5⟩ := charStep c hcc hcl
    rw [h1]
    exact ⟨rfl, h2, h3, h4, h5⟩
  have hx : norm s = (jsTrim (s.map jsToLower)).map
      (fun c => (stripChar c).headI) := by
    show stripAccents (jsTrim (s.map jsToLower)) = _
    rw [stripAccents_eq_flatMap]
    exact flatMap_singleton stripChar _ _ (fun c hc => (hsingle c hc).1)
  have hxm : ∀ d ∈ norm s, combining d = false ∧ jsToLower d = d ∧
      stripChar d = [d] := by
    intro d hd
    rw [hx] at hd
    obtain ⟨c, hc, rfl⟩ := List.mem_map.mp hd
    obtain ⟨-, h2, h3, h4, -⟩ := hsingle c hc
    exact ⟨h2, h3, h4⟩
  have hmap : (norm s).map jsToLower = norm s :=
    map_self_of _ _ (fun d hd => (hxm d hd).2.1)
  have htrim : jsTrim (norm s) = norm s := by
    rw [hx, jsTrim_map _ _ (fun c hc => (hsingle c hc).2.2.2.2)]
    rw [show jsTrim (jsTrim (s.map jsToLower)) =
        jsTrim (s.map jsToLower) from jsTrim_idem _]
  have hstrip : stripAccents (norm s) = norm s := by
    rw [stripAccents_eq_flatMap]
    rw [flatMap_singleton stripChar id _ (fun d hd => (hxm d hd).2.2)]
    exact List.map_id _
  show stripAccents (jsTrim ((norm s).map jsToLower)) = norm s
  rw [hmap, htrim]
  exact hstrip

/-- Witness for `norm_idempotent_on_clean`: idempotence at a concrete
accented, mixed-case, padded string. -/
theorem norm_idempotent_on_clean_witness :
    norm (norm (str "  HÔtel Réservation  ")) =
      norm (str "  HÔtel Réservation  ") :=
  norm_idempotent_on_clean.1 (str "  HÔtel Réservation  ") (by decide)

/-- Counterexample to C6 as stated: the normalizer is not idempotent on
every string.  On `['a', ' ', U+0301]` the first pass strips the
combining acute and leaves a trailing space (trim ran before the
strip), so a second pass still changes the string. -/
theorem norm_not_idempotent :
    norm (norm ['a', ' ', '\u0301']) ≠ norm ['a', ' ', '\u0301'] := by
  decide
